import Mathlib

/-
Verification of the Magic Formula rotation engine (src/magic_formula.py).

Shallow embedding: snapshots become structures over the rationals, the
Python dict self.purchased_securities becomes an association list with
insertion-order semantics, Python's stable sorted(key, reverse) becomes
List.mergeSort with the corresponding Bool comparator, and the monthly
sell/buy cycle of OnSecuritiesChanged becomes an explicit state-passing
function that also records the emitted order intents.
-/

/-- A coarse-universe snapshot: the fields of CoarseFundamental read by
CoarseFilterFunction. -/
structure CoarseFundamental where
  symbol : String
  hasFundamentalData : Bool
  dollarVolume : ℚ
deriving DecidableEq

/-- Morningstar sector code for utilities, from the platform data library. -/
def MorningstarSectorCode.Utilities : Nat := 207

/-- Morningstar sector code for financial services, from the platform data
library. -/
def MorningstarSectorCode.FinancialServices : Nat := 103

/-- A fine-universe snapshot: the fields of FineFundamental read by
FineFundamentalFunction. -/
structure FineFundamental where
  symbol : String
  marketCap : ℚ
  countryId : String
  primaryExchangeID : String
  morningstarSectorCode : Nat
  forwardROA : ℚ
  evToEBITDA : ℚ
deriving DecidableEq

/-- The holding ledger self.purchased_securities: a Python dict from symbol
to the month it was stored with, modelled as an association list in
insertion order. -/
abbrev Dict := List (String × Nat)

/-- Python `key in dict` membership test. -/
def dictContains (d : Dict) (s : String) : Bool :=
  d.any (fun kv => kv.1 == s)

/-- Python `dict[key] = value`: overwrite in place when the key is present,
otherwise append (dicts preserve insertion order). -/
def dictInsert (s : String) (v : Nat) (d : Dict) : Dict :=
  if dictContains d s then d.map (fun kv => if kv.1 == s then (s, v) else kv)
  else d ++ [(s, v)]

/-- Python `dict.pop(key)`: remove the entry for the key. -/
def dictPop (k : String) (d : Dict) : Dict :=
  d.eraseP (fun kv => kv.1 == k)

/-- The keys of the ledger are pairwise distinct (true of every Python
dict; an invariant of the association-list model). -/
def NodupKeys (d : Dict) : Prop :=
  (d.map Prod.fst).Nodup

/-- Python sorted(l, key=k): stable, ascending by key. -/
def pySortedAsc {α : Type} (key : α → ℚ) (l : List α) : List α :=
  l.mergeSort (fun a b => decide (key a ≤ key b))

/-- Python sorted(l, key=k, reverse=True): stable, descending by key. -/
def pySortedDesc {α : Type} (key : α → ℚ) (l : List α) : List α :=
  l.mergeSort (fun a b => decide (key b ≤ key a))

/-- self.NumberSecurtitiesPortfolio, set in Initialize. -/
def NumberSecurtitiesPortfolio : Nat := 24

/-- self.MonthsToKeepSecurities, set in Initialize. -/
def MonthsToKeepSecurities : Nat := 12

/-- self.NumberSecuritiesPerMonth = int(24 / 12), set in Initialize: the
per-cycle acquisition quota. -/
def NumberSecuritiesPerMonth : Nat :=
  NumberSecurtitiesPortfolio / MonthsToKeepSecurities

/-- Python round(q, 3): round to three decimal places, ties to even
(banker's rounding), computed exactly over the rationals. -/
def pyRound3 (q : ℚ) : ℚ :=
  let scaled := q * 1000
  let fl : ℤ := ⌊scaled⌋
  let frac : ℚ := scaled - (fl : ℚ)
  let r : ℤ :=
    if frac < 1/2 then fl
    else if 1/2 < frac then fl + 1
    else if fl % 2 = 0 then fl else fl + 1
  (r : ℚ) / 1000

/-- self.percent_holding =
round((NumberSecuritiesPerMonth/NumberSecurtitiesPortfolio)/NumberSecuritiesPerMonth, 3),
set in Initialize: the per-position target weight. -/
def percent_holding : ℚ :=
  pyRound3 (((NumberSecuritiesPerMonth : ℚ) / (NumberSecurtitiesPortfolio : ℚ)) /
    (NumberSecuritiesPerMonth : ℚ))

/-- The engine state owned by the algorithm object: self.lastMonth
(initially -1), self.month (unset until first assigned, hence Option), and
the holding ledger self.purchased_securities. -/
structure AlgoState where
  lastMonth : Int
  month : Option Nat
  purchased_securities : Dict
deriving DecidableEq

/-- The state right after Initialize: lastMonth = -1, self.month not yet
assigned, empty ledger. -/
def initialState : AlgoState :=
  { lastMonth := -1, month := none, purchased_securities := [] }

/-- Result of a universe-selection callback: either Universe.Unchanged or a
new ordered symbol list. -/
inductive CoarseResult where
  | unchanged
  | changed (symbols : List String)
deriving DecidableEq

/-- CoarseFilterFunction: no-op during warm-up; records the current month
in self.month; returns Unchanged within an already-processed month;
otherwise updates self.lastMonth, keeps snapshots with fundamental data and
returns their symbols sorted by dollar volume descending. -/
def CoarseFilterFunction (isWarmingUp : Bool) (timeMonth : Nat)
    (coarse : List CoarseFundamental) (st : AlgoState) :
    AlgoState × CoarseResult :=
  if isWarmingUp then (st, .unchanged)
  else
    let st := { st with month := some timeMonth }
    if (timeMonth : Int) == st.lastMonth then (st, .unchanged)
    else
      let st := { st with lastMonth := (timeMonth : Int) }
      let filtered := coarse.filter (fun x => x.hasFundamentalData)
      let dollar_sorted := pySortedDesc (fun x => x.dollarVolume) filtered
      (st, .changed (dollar_sorted.map (fun x => x.symbol)))

/-- The four filter stages of FineFundamentalFunction: market-cap floor,
USA on NYSE or NASDAQ, sector exclusion, forward-ROA floor. -/
def fineFilterStages (fine : List FineFundamental) : List FineFundamental :=
  let filtered_marketcap := fine.filter (fun x => decide ((50e6 : ℚ) < x.marketCap))
  let filtered_us := filtered_marketcap.filter (fun x =>
    x.countryId == "USA" &&
    (x.primaryExchangeID == "NYS" || x.primaryExchangeID == "NAS"))
  let filtered_indu := filtered_us.filter (fun x =>
    !(x.morningstarSectorCode == MorningstarSectorCode.Utilities) &&
    !(x.morningstarSectorCode == MorningstarSectorCode.FinancialServices))
  let filtered_ROA := filtered_indu.filter (fun x => decide ((0.25 : ℚ) < x.forwardROA))
  filtered_ROA

/-- The two-pass stable sort of FineFundamentalFunction: first by EVToEBITDA
descending, then by ForwardROA ascending. -/
def fineSortPhase (l : List FineFundamental) : List FineFundamental :=
  let sorted_EVToEBITDA := pySortedDesc (fun x => x.evToEBITDA) l
  let sorted_ROA := pySortedAsc (fun x => x.forwardROA) sorted_EVToEBITDA
  sorted_ROA

/-- FineFundamentalFunction: filter stages, two-pass stable sort, removal of
already-held symbols, truncation to NumberSecuritiesPerMonth. -/
def FineFundamentalFunction (purchased : Dict) (fine : List FineFundamental) :
    List String :=
  let sorted_ROA := fineSortPhase (fineFilterStages fine)
  let not_holding :=
    (sorted_ROA.filter (fun f => !(dictContains purchased f.symbol))).map
      (fun f => f.symbol)
  let final_list := not_holding.take NumberSecuritiesPerMonth
  final_list

/-- An intent emitted toward the execution collaborator: SetHoldings on a
symbol (acquisition) or Liquidate on a symbol (liquidation). -/
inductive Intent where
  | buy (symbol : String)
  | sell (symbol : String)
deriving DecidableEq

/-- sell_securities(month): collect the keys whose stored value equals the
given month, liquidate each and pop it from the ledger. Returns the new
ledger and the liquidated symbols in order. -/
def sell_securities (month : Nat) (d : Dict) : Dict × List String :=
  let to_pop := (d.filter (fun kv => kv.2 == month)).map Prod.fst
  (to_pop.foldl (fun dd k => dictPop k dd) d, to_pop)

/-- The ledger-and-intent effect of one OnSecuritiesChanged invocation at a
given month: the sell step, then one SetHoldings intent and one ledger
insertion per added security. -/
def monthCycle (month : Nat) (added : List String) (d : Dict) :
    Dict × List Intent :=
  let sold := (sell_securities month d).2
  let d1 := (sell_securities month d).1
  let d2 := added.foldl (fun dd s => dictInsert s month dd) d1
  (d2, sold.map Intent.sell ++ added.map Intent.buy)

/-- OnSecuritiesChanged: reads self.month (an AttributeError if no
non-warm-up coarse call has assigned it yet), then runs the sell step
followed by the buy step. -/
def OnSecuritiesChanged (added : List String) (st : AlgoState) :
    Except String (AlgoState × List Intent) :=
  match st.month with
  | none => .error "AttributeError: no attribute month"
  | some m =>
    let r := monthCycle m added st.purchased_securities
    .ok ({ st with purchased_securities := r.1 }, r.2)

/-- A sequence of monthly cycles with arbitrary months and buy lists,
accumulating the emitted intents in order. -/
def runCycles : List (Nat × List String) → Dict → Dict × List Intent
  | [], d => (d, [])
  | (m, added) :: rest, d =>
    let r1 := monthCycle m added d
    let r2 := runCycles rest r1.1
    (r2.1, r1.2 ++ r2.2)

/-- Month-of-year (the value of self.Time.month, in 1..12) of an absolute
month index. -/
def monthOfYear (t : Nat) : Nat := t % 12 + 1

/-- A run of consecutive monthly cycles: the i-th cycle happens in absolute
month t + i and sees month-of-year monthOfYear (t + i). -/
def runCalendar : Nat → List (List String) → Dict → Dict × List Intent
  | _, [], d => (d, [])
  | t, added :: rest, d =>
    let r1 := monthCycle (monthOfYear t) added d
    let r2 := runCalendar (t + 1) rest r1.1
    (r2.1, r1.2 ++ r2.2)

/-- An external stimulus: a universe-selection tick (which runs
CoarseFilterFunction) or a securities-changed notification. -/
inductive Event where
  | coarseCall (isWarmingUp : Bool) (timeMonth : Nat) (coarse : List CoarseFundamental)
  | securitiesChanged (added : List String)

/-- Whether an event is a coarse-filter call outside warm-up. -/
def isActiveCoarse : Event → Bool
  | .coarseCall false _ _ => true
  | _ => false

/-- Process a list of events in arrival order, propagating an undefined
attribute read as an error. -/
def runEvents : List Event → AlgoState → Except String AlgoState
  | [], st => .ok st
  | e :: es, st =>
    match e with
    | .coarseCall w m c => runEvents es (CoarseFilterFunction w m c st).1
    | .securitiesChanged added =>
      match OnSecuritiesChanged added st with
      | .error msg => .error msg
      | .ok r => runEvents es r.1

/-- The symbols an intent touches. -/
def touches (s : String) : Intent → Bool
  | .buy t => t == s
  | .sell t => t == s

/-- A symbol has an open acquisition in an intent log when the last intent
touching it is a buy: an acquisition intent was issued and no liquidation
intent was issued afterwards. -/
def openAcquisition (s : String) (ins : List Intent) : Bool :=
  match ins.reverse.find? (touches s) with
  | some (Intent.buy _) => true
  | _ => false

/-- Claim C8: a Coarse Filter call during warm-up returns Unchanged and
leaves the whole engine state (lastMonth, month, ledger) unchanged. -/
theorem warmup_call_is_noop (m : Nat) (coarse : List CoarseFundamental)
    (st : AlgoState) :
    CoarseFilterFunction true m coarse st = (st, CoarseResult.unchanged) := by
  rfl

/-- Claim C5: every non-warm-up Coarse Filter call leaves lastMonth equal to
the current month (in particular the first call in a new month updates it),
and a second call in the same month on the resulting state returns
Unchanged with the state unchanged. -/
theorem coarse_idempotent_within_month (st : AlgoState) (m : Nat)
    (c1 c2 : List CoarseFundamental) :
    (CoarseFilterFunction false m c1 st).1.lastMonth = (m : Int) ∧
    CoarseFilterFunction false m c2 (CoarseFilterFunction false m c1 st).1 =
      ((CoarseFilterFunction false m c1 st).1, CoarseResult.unchanged) := by
  unfold CoarseFilterFunction
  by_cases h : (m : Int) = st.lastMonth
  · simp [h]
  · simp [h]

/-- Claim C4, counterexample: the per-position target weight computed in
Initialize is not exactly 1/24 (it is rounded to three decimals). -/
theorem percent_holding_ne_one_div_slots :
    percent_holding ≠ 1 / (NumberSecurtitiesPortfolio : ℚ) := by
  unfold percent_holding pyRound3 NumberSecuritiesPerMonth
    NumberSecurtitiesPortfolio MonthsToKeepSecurities
  norm_num

/-- Claim C4 as amended: the per-position target weight equals 1/slots
rounded to three decimal places; with 24 slots and horizon 12 it is 0.042,
and the acquisition quota is 24 / 12 = 2. -/
theorem percent_holding_eq_rounded :
    percent_holding = pyRound3 (1 / (NumberSecurtitiesPortfolio : ℚ)) ∧
    percent_holding = (0.042 : ℚ) ∧
    NumberSecuritiesPerMonth = 2 := by
  refine ⟨?_, ?_, rfl⟩ <;>
  · unfold percent_holding pyRound3 NumberSecuritiesPerMonth
      NumberSecurtitiesPortfolio MonthsToKeepSecurities
    norm_num

/-- Every element of the sort phase comes from the input list (the two
merge sorts only permute). -/
theorem mem_fineSortPhase {f : FineFundamental} {l : List FineFundamental} :
    f ∈ fineSortPhase l ↔ f ∈ l := by
  unfold fineSortPhase pySortedAsc pySortedDesc
  simp

/-- Claim C1: the Fine Ranker returns at most NumberSecuritiesPerMonth
symbols, and none of them is a key of the holding ledger it was given. -/
theorem fine_ranker_quota_and_dedup (purchased : Dict)
    (fine : List FineFundamental) :
    (FineFundamentalFunction purchased fine).length ≤ NumberSecuritiesPerMonth ∧
    ∀ s ∈ FineFundamentalFunction purchased fine,
      dictContains purchased s = false := by
  constructor
  · exact List.length_take_le _ _
  · intro s hs
    have hs' := List.mem_of_mem_take hs
    simp only [FineFundamentalFunction, List.mem_map, List.mem_filter,
      Bool.not_eq_true'] at hs'
    obtain ⟨f, ⟨_, hb⟩, rfl⟩ := hs'
    exact hb

/-- Claim C1 witness at a concrete input. -/
theorem fine_ranker_quota_and_dedup_witness :
    (FineFundamentalFunction [("AAPL", 3)]
        [{ symbol := "MSFT", marketCap := 60000000, countryId := "USA",
           primaryExchangeID := "NAS", morningstarSectorCode := 311,
           forwardROA := 0.3, evToEBITDA := 9 }]).length ≤
      NumberSecuritiesPerMonth ∧
    ∀ s ∈ FineFundamentalFunction [("AAPL", 3)]
        [{ symbol := "MSFT", marketCap := 60000000, countryId := "USA",
           primaryExchangeID := "NAS", morningstarSectorCode := 311,
           forwardROA := 0.3, evToEBITDA := 9 }],
      dictContains [("AAPL", 3)] s = false :=
  fine_ranker_quota_and_dedup _ _

/-- Claim C9: a snapshot whose market capitalization is at most 50,000,000
never contributes its symbol to the Fine Ranker output (symbols are assumed
pairwise distinct across snapshots, as in the platform universe). -/
theorem marketcap_floor_excludes (purchased : Dict)
    (fine : List FineFundamental) (x : FineFundamental) (hx : x ∈ fine)
    (hcap : x.marketCap ≤ (50e6 : ℚ))
    (hnd : (fine.map FineFundamental.symbol).Nodup) :
    x.symbol ∉ FineFundamentalFunction purchased fine := by
  intro hmem
  have hmem' := List.mem_of_mem_take hmem
  simp only [FineFundamentalFunction, List.mem_map, List.mem_filter] at hmem'
  obtain ⟨f, ⟨hf, _⟩, hfs⟩ := hmem'
  have hf2 : f ∈ fineFilterStages fine := mem_fineSortPhase.mp hf
  simp only [fineFilterStages, List.mem_filter, decide_eq_true_eq] at hf2
  obtain ⟨⟨⟨⟨hffine, hcapf⟩, _⟩, _⟩, _⟩ := hf2
  have hfx : f = x :=
    List.inj_on_of_nodup_map hnd hffine hx hfs
  rw [hfx] at hcapf
  exact absurd hcap (not_le.mpr hcapf)

/-- Claim C9 witness: a snapshot with market cap 40,000,000 is excluded. -/
theorem marketcap_floor_excludes_witness :
    "SMALL" ∉ FineFundamentalFunction []
      [{ symbol := "SMALL", marketCap := 40000000, countryId := "USA",
         primaryExchangeID := "NYS", morningstarSectorCode := 311,
         forwardROA := 0.9, evToEBITDA := 4 }] :=
  marketcap_floor_excludes [] _
    { symbol := "SMALL", marketCap := 40000000, countryId := "USA",
      primaryExchangeID := "NYS", morningstarSectorCode := 311,
      forwardROA := 0.9, evToEBITDA := 4 }
    (by simp) (by norm_num) (by simp)

/-- The ascending-by-key comparator used for Python sorted is transitive. -/
theorem keyAsc_trans {α : Type} (key : α → ℚ) : ∀ a b c : α,
    decide (key a ≤ key b) = true → decide (key b ≤ key c) = true →
    decide (key a ≤ key c) = true := by
  intro a b c h1 h2
  simp only [decide_eq_true_eq] at *
  exact le_trans h1 h2

/-- The ascending-by-key comparator used for Python sorted is total. -/
theorem keyAsc_total {α : Type} (key : α → ℚ) : ∀ a b : α,
    (decide (key a ≤ key b) || decide (key b ≤ key a)) = true := by
  intro a b
  simpa using le_total (key a) (key b)

/-- The descending-by-key comparator used for Python sorted is transitive. -/
theorem keyDesc_trans {α : Type} (key : α → ℚ) : ∀ a b c : α,
    decide (key b ≤ key a) = true → decide (key c ≤ key b) = true →
    decide (key c ≤ key a) = true := by
  intro a b c h1 h2
  simp only [decide_eq_true_eq] at *
  exact le_trans h2 h1

/-- The descending-by-key comparator used for Python sorted is total. -/
theorem keyDesc_total {α : Type} (key : α → ℚ) : ∀ a b : α,
    (decide (key b ≤ key a) || decide (key a ≤ key b)) = true := by
  intro a b
  simpa using le_total (key b) (key a)

/-- Two distinct members of a list form a length-two sublist in one of the
two orders. -/
theorem pair_sublist_of_mem_ne {α : Type} {x y : α} :
    ∀ {l : List α}, x ∈ l → y ∈ l → x ≠ y →
      List.Sublist [x, y] l ∨ List.Sublist [y, x] l := by
  intro l
  induction l with
  | nil => intro h; cases h
  | cons a t ih =>
    intro hx hy hne
    rcases List.mem_cons.mp hx with rfl | hx'
    · rcases List.mem_cons.mp hy with rfl | hy'
      · exact absurd rfl hne
      · exact Or.inl (List.Sublist.cons₂ _ (List.singleton_sublist.mpr hy'))
    · rcases List.mem_cons.mp hy with rfl | hy'
      · exact Or.inr (List.Sublist.cons₂ _ (List.singleton_sublist.mpr hx'))
      · rcases ih hx' hy' hne with h | h
        · exact Or.inl (h.cons _)
        · exact Or.inr (h.cons _)

/-- In a duplicate-free list, a pair cannot occur as a sublist in both
orders unless its two components are equal. -/
theorem eq_of_pair_sublist_nodup {α : Type} {x y : α} :
    ∀ {l : List α}, l.Nodup → List.Sublist [x, y] l → List.Sublist [y, x] l → x = y := by
  intro l
  induction l with
  | nil => intro _ h; cases h
  | cons a t ih =>
    intro hnd h1 h2
    obtain ⟨ha, hnd'⟩ := List.nodup_cons.mp hnd
    cases h1 with
    | cons _ h1' =>
      cases h2 with
      | cons _ h2' => exact ih hnd' h1' h2'
      | cons₂ _ h2' =>
        exact absurd (h1'.subset (by simp)) ha
    | cons₂ _ h1' =>
      cases h2 with
      | cons _ h2' =>
        exact absurd (h2'.subset (by simp)) ha
      | cons₂ _ h2' => rfl

/-- Claim C2: the Fine Ranker's final order is the stable ROA-ascending
sort of the stable EVToEBITDA-descending sort of the filtered candidate
set; consequently the sort phase permutes the candidates, is ordered by
forward ROA ascending, and among equal-ROA candidates keeps EVToEBITDA
descending order. -/
theorem sort_composition (purchased : Dict) (fine : List FineFundamental)
    (hnd : (fineFilterStages fine).Nodup) :
    FineFundamentalFunction purchased fine =
      ((((pySortedAsc (fun x => x.forwardROA)
          (pySortedDesc (fun x => x.evToEBITDA) (fineFilterStages fine))).filter
          (fun f => !(dictContains purchased f.symbol))).map
          (fun f => f.symbol)).take NumberSecuritiesPerMonth) ∧
    (fineSortPhase (fineFilterStages fine)).Pairwise
      (fun a b => a.forwardROA ≤ b.forwardROA) ∧
    (fineSortPhase (fineFilterStages fine)).Perm (fineFilterStages fine) ∧
    ∀ x y, List.Sublist [x, y] (fineSortPhase (fineFilterStages fine)) →
      x.forwardROA = y.forwardROA → y.evToEBITDA ≤ x.evToEBITDA := by
  refine ⟨rfl, ?_, ?_, ?_⟩
  · have h := List.sorted_mergeSort
      (keyAsc_trans (fun x : FineFundamental => x.forwardROA))
      (keyAsc_total (fun x : FineFundamental => x.forwardROA))
      (pySortedDesc (fun x => x.evToEBITDA) (fineFilterStages fine))
    exact h.imp (fun hab => by simpa using hab)
  · exact (List.mergeSort_perm _ _).trans (List.mergeSort_perm _ _)
  · intro x y hsub heq
    by_contra hlt
    have hevlt : x.evToEBITDA < y.evToEBITDA := lt_of_not_le hlt
    have hne : x ≠ y := fun e => by rw [e] at hevlt; exact lt_irrefl _ hevlt
    have hx3 : x ∈ fineSortPhase (fineFilterStages fine) := hsub.subset (by simp)
    have hy3 : y ∈ fineSortPhase (fineFilterStages fine) := hsub.subset (by simp)
    have hx2 : x ∈ pySortedDesc (fun x => x.evToEBITDA) (fineFilterStages fine) := by
      have := hx3
      unfold fineSortPhase pySortedAsc at this
      simpa using this
    have hy2 : y ∈ pySortedDesc (fun x => x.evToEBITDA) (fineFilterStages fine) := by
      have := hy3
      unfold fineSortPhase pySortedAsc at this
      simpa using this
    have l2sorted := List.sorted_mergeSort
      (keyDesc_trans (fun x : FineFundamental => x.evToEBITDA))
      (keyDesc_total (fun x : FineFundamental => x.evToEBITDA))
      (fineFilterStages fine)
    rcases pair_sublist_of_mem_ne hx2 hy2 hne with hp | hp
    · have hrel := List.pairwise_pair.mp (l2sorted.sublist hp)
      simp only [decide_eq_true_eq] at hrel
      exact hlt hrel
    · have hyx3 : List.Sublist [y, x] (fineSortPhase (fineFilterStages fine)) := by
        unfold fineSortPhase pySortedAsc
        exact List.pair_sublist_mergeSort
          (keyAsc_trans (fun x : FineFundamental => x.forwardROA))
          (keyAsc_total (fun x : FineFundamental => x.forwardROA))
          (by simp [heq]) hp
      have hnd3 : (fineSortPhase (fineFilterStages fine)).Nodup :=
        (((List.mergeSort_perm _ _).trans (List.mergeSort_perm _ _)).nodup_iff).mpr hnd
      exact hne (eq_of_pair_sublist_nodup hnd3 hsub hyx3)

/-- A concrete two-candidate universe with equal forward ROA used to
witness the sort-composition theorem. -/
def demoFine : List FineFundamental :=
  [{ symbol := "ALFA", marketCap := 60000000, countryId := "USA",
     primaryExchangeID := "NYS", morningstarSectorCode := 311,
     forwardROA := 0.3, evToEBITDA := 9 },
   { symbol := "BETA", marketCap := 70000000, countryId := "USA",
     primaryExchangeID := "NAS", morningstarSectorCode := 311,
     forwardROA := 0.3, evToEBITDA := 7 }]

/-- Claim C2 witness: the composition law instantiated at a concrete
duplicate-free candidate universe. -/
theorem sort_composition_witness :
    FineFundamentalFunction [] demoFine =
      ((((pySortedAsc (fun x => x.forwardROA)
          (pySortedDesc (fun x => x.evToEBITDA) (fineFilterStages demoFine))).filter
          (fun f => !(dictContains [] f.symbol))).map
          (fun f => f.symbol)).take NumberSecuritiesPerMonth) ∧
    (fineSortPhase (fineFilterStages demoFine)).Pairwise
      (fun a b => a.forwardROA ≤ b.forwardROA) ∧
    (fineSortPhase (fineFilterStages demoFine)).Perm (fineFilterStages demoFine) ∧
    ∀ x y, List.Sublist [x, y] (fineSortPhase (fineFilterStages demoFine)) →
      x.forwardROA = y.forwardROA → y.evToEBITDA ≤ x.evToEBITDA :=
  sort_composition [] demoFine (by
    simp only [demoFine, fineFilterStages, List.filter]
    norm_num
    simp [List.filter, MorningstarSectorCode.Utilities,
      MorningstarSectorCode.FinancialServices]
    norm_num)

/-- Claim C7: within one securities-changed cycle, every liquidation intent
is emitted before every acquisition intent. -/
theorem sells_precede_buys (m : Nat) (added : List String) (d : Dict)
    (i j : Nat) (s t : String)
    (hi : ((monthCycle m added d).2)[i]? = some (Intent.buy s))
    (hj : ((monthCycle m added d).2)[j]? = some (Intent.sell t)) :
    j < i := by
  unfold monthCycle at hi hj
  simp only at hi hj
  by_cases hlt : i < ((sell_securities m d).2.map Intent.sell).length
  · rw [List.getElem?_append_left hlt, List.getElem?_map] at hi
    rcases Option.map_eq_some'.mp hi with ⟨u, _, hu⟩
    cases hu
  · push_neg at hlt
    by_cases hj' : j < ((sell_securities m d).2.map Intent.sell).length
    · exact lt_of_lt_of_le hj' hlt
    · push_neg at hj'
      rw [List.getElem?_append_right hj', List.getElem?_map] at hj
      rcases Option.map_eq_some'.mp hj with ⟨u, _, hu⟩
      cases hu

/-- Claim C7 witness: with one aged-out holding and one new symbol, the
liquidation intent at index 0 precedes the acquisition intent at index 1. -/
theorem sells_precede_buys_witness :
    ((monthCycle 5 ["BETA"] [("ALFA", 5)]).2)[1]? = some (Intent.buy "BETA") ∧
    ((monthCycle 5 ["BETA"] [("ALFA", 5)]).2)[0]? = some (Intent.sell "ALFA") ∧
    (0 : Nat) < 1 :=
  ⟨by decide, by decide,
    sells_precede_buys 5 ["BETA"] [("ALFA", 5)] 1 0 "BETA" "ALFA"
      (by decide) (by decide)⟩

/-- Popping a key whose entry heads the ledger removes that entry. -/
theorem dictPop_cons_pos {k : String} {kv : String × Nat} {d : Dict}
    (h : (kv.1 == k) = true) : dictPop k (kv :: d) = d := by
  simp [dictPop, List.eraseP_cons, h]

/-- Popping a key distinct from the head key passes over the head. -/
theorem dictPop_cons_neg {k : String} {kv : String × Nat} {d : Dict}
    (h : (kv.1 == k) = false) : dictPop k (kv :: d) = kv :: dictPop k d := by
  simp [dictPop, List.eraseP_cons, h]

/-- A sequence of pops for keys other than the head key leaves the head in
place. -/
theorem popList_cons {kv : String × Nat} :
    ∀ {ks : List String} {d : Dict}, (∀ x ∈ ks, (kv.1 == x) = false) →
      ks.foldl (fun dd k => dictPop k dd) (kv :: d) =
        kv :: ks.foldl (fun dd k => dictPop k dd) d := by
  intro ks
  induction ks with
  | nil => intro d _; rfl
  | cons a t ih =>
    intro d h
    have ha : (kv.1 == a) = false := h a (by simp)
    simp only [List.foldl_cons, dictPop_cons_neg ha]
    exact ih (fun x hx => h x (by simp [hx]))

/-- The keys listed for liquidation are those stored with the given month. -/
theorem sell_securities_snd (m : Nat) (d : Dict) :
    (sell_securities m d).2 = (d.filter (fun kv => kv.2 == m)).map Prod.fst :=
  rfl

/-- On a duplicate-free ledger, the sell step's pops remove exactly the
entries stored with the given month. -/
theorem sell_securities_fst (m : Nat) :
    ∀ {d : Dict}, NodupKeys d →
      (sell_securities m d).1 = d.filter (fun kv => !(kv.2 == m)) := by
  intro d
  induction d with
  | nil => intro _; rfl
  | cons kv t ih =>
    intro hnd
    obtain ⟨hk, hnd'⟩ := List.nodup_cons.mp hnd
    have ht := ih hnd'
    simp only [sell_securities] at ht ⊢
    by_cases hv : (kv.2 == m) = true
    · rw [show List.filter (fun kv => kv.2 == m) (kv :: t) =
          kv :: List.filter (fun kv => kv.2 == m) t from List.filter_cons_of_pos hv,
        List.map_cons, List.foldl_cons, dictPop_cons_pos (beq_self_eq_true kv.1), ht,
        show List.filter (fun kv => !(kv.2 == m)) (kv :: t) =
          List.filter (fun kv => !(kv.2 == m)) t from
          List.filter_cons_of_neg (by simp [hv])]
    · have hv' : (kv.2 == m) = false := by simpa using hv
      have hpops : ∀ x ∈ (t.filter (fun kv => kv.2 == m)).map Prod.fst,
          (kv.1 == x) = false := by
        intro x hx
        simp only [List.mem_map, List.mem_filter] at hx
        obtain ⟨kv2, ⟨hkv2, _⟩, rfl⟩ := hx
        have hmem : kv2.1 ∈ t.map Prod.fst := List.mem_map_of_mem _ hkv2
        by_contra hcon
        simp only [Bool.not_eq_false, beq_iff_eq] at hcon
        rw [hcon] at hk
        exact hk hmem
      rw [show List.filter (fun kv => kv.2 == m) (kv :: t) =
          List.filter (fun kv => kv.2 == m) t from
          List.filter_cons_of_neg (by simp [hv']),
        popList_cons hpops, ht,
        show List.filter (fun kv => !(kv.2 == m)) (kv :: t) =
          kv :: List.filter (fun kv => !(kv.2 == m)) t from
          List.filter_cons_of_pos (by simp [hv'])]

/-- Ledger membership is membership among the keys. -/
theorem contains_iff {d : Dict} {s : String} :
    dictContains d s = true ↔ s ∈ d.map Prod.fst := by
  simp only [dictContains, List.any_eq_true, List.mem_map, beq_iff_eq]

/-- A lookup succeeds exactly when the key occurs among the keys. -/
theorem lookup_isSome_iff {s : String} :
    ∀ {d : Dict}, (d.lookup s).isSome = true ↔ s ∈ d.map Prod.fst := by
  intro d
  induction d with
  | nil => simp
  | cons kv t ih =>
    obtain ⟨k, b⟩ := kv
    rw [List.lookup_cons]
    by_cases h : (s == k) = true
    · have : s = k := beq_iff_eq.mp h
      simp [h, this]
    · have h' : (s == k) = false := by simpa using h
      have hne : s ≠ k := by simpa using h'
      simp only [h', List.map_cons, List.mem_cons]
      rw [ih]
      constructor
      · exact Or.inr
      · rintro (rfl | hmem)
        · exact absurd rfl hne
        · exact hmem

/-- A lookup fails exactly when the key is absent from the keys. -/
theorem lookup_eq_none_iff {d : Dict} {s : String} :
    d.lookup s = none ↔ s ∉ d.map Prod.fst := by
  rw [← lookup_isSome_iff]
  cases d.lookup s <;> simp

/-- On a duplicate-free ledger, looking a key up returns exactly the value
it is paired with. -/
theorem lookup_eq_some_iff_mem {s : String} {v : Nat} :
    ∀ {d : Dict}, NodupKeys d → (d.lookup s = some v ↔ (s, v) ∈ d) := by
  intro d
  induction d with
  | nil => simp
  | cons kv t ih =>
    intro hnd
    obtain ⟨hk, hnd'⟩ := List.nodup_cons.mp hnd
    obtain ⟨k, b⟩ := kv
    rw [List.lookup_cons]
    by_cases h : (s == k) = true
    · have hsk : s = k := beq_iff_eq.mp h
      subst hsk
      simp only [h, List.mem_cons, Option.some_inj, Prod.mk.injEq, true_and]
      constructor
      · exact fun hbv => Or.inl hbv.symm
      · rintro (rfl | hmem)
        · rfl
        · exact absurd (List.mem_map_of_mem Prod.fst hmem) hk
    · have h' : (s == k) = false := by simpa using h
      have hne : s ≠ k := by simpa using h'
      simp only [h', List.mem_cons, Prod.mk.injEq]
      rw [ih hnd']
      constructor
      · exact Or.inr
      · rintro (⟨rfl, _⟩ | hmem)
        · exact absurd rfl hne
        · exact hmem

/-- Filtering out the entries stored with a month keeps the lookup of a key
stored with a different month. -/
theorem lookup_filter_keep {m : Nat} {s : String} {v : Nat} :
    ∀ {d : Dict}, d.lookup s = some v → (v == m) = false →
      (d.filter (fun kv => !(kv.2 == m))).lookup s = some v := by
  intro d
  induction d with
  | nil => intro h; simp at h
  | cons kv t ih =>
    intro h hne
    obtain ⟨k, b⟩ := kv
    rw [List.lookup_cons] at h
    by_cases hsk : (s == k) = true
    · simp only [hsk, Option.some_inj] at h
      subst h
      rw [show List.filter (fun kv => !(kv.2 == m)) ((k, b) :: t) =
        (k, b) :: List.filter (fun kv => !(kv.2 == m)) t from
        List.filter_cons_of_pos (by simpa using hne)]
      rw [List.lookup_cons]
      simp [hsk]
    · have hsk' : (s == k) = false := by simpa using hsk
      simp only [hsk'] at h
      by_cases hb : (b == m) = true
      · rw [show List.filter (fun kv => !(kv.2 == m)) ((k, b) :: t) =
          List.filter (fun kv => !(kv.2 == m)) t from
          List.filter_cons_of_neg (by simp [hb])]
        exact ih h hne
      · rw [show List.filter (fun kv => !(kv.2 == m)) ((k, b) :: t) =
          (k, b) :: List.filter (fun kv => !(kv.2 == m)) t from
          List.filter_cons_of_pos (by simpa using hb)]
        rw [List.lookup_cons]
        simp only [hsk']
        exact ih h hne

/-- On a duplicate-free ledger, filtering out the entries stored with a
month removes a key stored with exactly that month. -/
theorem lookup_filter_drop {m : Nat} {s : String} {d : Dict}
    (hnd : NodupKeys d) (h : d.lookup s = some m) :
    (d.filter (fun kv => !(kv.2 == m))).lookup s = none := by
  rw [lookup_eq_none_iff]
  intro hmem
  simp only [List.mem_map] at hmem
  obtain ⟨kv, hkv, rfl⟩ := hmem
  have hkvd : kv ∈ d := List.mem_of_mem_filter hkv
  have hkvp := List.of_mem_filter hkv
  simp only [Bool.not_eq_eq_eq_not, Bool.not_true, beq_eq_false_iff_ne] at hkvp
  have hm : (kv.1, m) ∈ d := (lookup_eq_some_iff_mem hnd).mp h
  have heq : kv = (kv.1, m) :=
    List.inj_on_of_nodup_map hnd hkvd hm rfl
  exact hkvp (congrArg Prod.snd heq)

/-- Overwriting an existing key in place does not change the key list. -/
theorem keys_mapUpdate {k : String} {v : Nat} {d : Dict} :
    (d.map (fun kv => if kv.1 == k then (k, v) else kv)).map Prod.fst =
      d.map Prod.fst := by
  rw [List.map_map]
  apply List.map_congr_left
  intro kv _
  by_cases h : (kv.1 == k) = true
  · simp [h, (beq_iff_eq.mp h).symm]
  · have h' : (kv.1 == k) = false := by simpa using h
    have hne : kv.1 ≠ k := by simpa using h'
    simp [h', hne]

/-- In-place overwrite of one key leaves the lookup of any other key
unchanged. -/
theorem lookup_mapUpdate_ne {k s : String} {v : Nat}
    (hne : (s == k) = false) :
    ∀ {d : Dict},
      (d.map (fun kv => if kv.1 == k then (k, v) else kv)).lookup s =
        d.lookup s := by
  intro d
  induction d with
  | nil => rfl
  | cons kv t ih =>
    obtain ⟨k1, b⟩ := kv
    by_cases h1 : (k1 == k) = true
    · have hk1 : k1 = k := beq_iff_eq.mp h1
      subst hk1
      simp only [List.map_cons, h1, if_true]
      rw [List.lookup_cons, List.lookup_cons]
      simp only [hne]
      exact ih
    · have h1' : (k1 == k) = false := by simpa using h1
      simp only [List.map_cons, h1', Bool.false_eq_true, if_false]
      rw [List.lookup_cons, List.lookup_cons]
      by_cases hs1 : (s == k1) = true
      · simp [hs1]
      · have hs1' : (s == k1) = false := by simpa using hs1
        simp only [hs1']
        exact ih

/-- Appending a fresh entry for one key leaves the lookup of any other key
unchanged. -/
theorem lookup_append_single_ne {k s : String} {v : Nat}
    (hne : (s == k) = false) :
    ∀ {d : Dict}, (d ++ [(k, v)]).lookup s = d.lookup s := by
  intro d
  induction d with
  | nil =>
    simp only [List.nil_append]
    rw [List.lookup_cons]
    simp [hne]
  | cons kv t ih =>
    obtain ⟨k1, b⟩ := kv
    simp only [List.cons_append]
    rw [List.lookup_cons, List.lookup_cons]
    by_cases hs1 : (s == k1) = true
    · simp [hs1]
    · have hs1' : (s == k1) = false := by simpa using hs1
      simp only [hs1']
      exact ih

/-- Inserting a key distinct from the probe leaves its lookup unchanged. -/
theorem lookup_dictInsert_ne {k s : String} {v : Nat}
    (hne : (s == k) = false) {d : Dict} :
    (dictInsert k v d).lookup s = d.lookup s := by
  unfold dictInsert
  by_cases hc : dictContains d k = true
  · simp only [hc, if_true]
    exact lookup_mapUpdate_ne hne
  · simp only [hc, Bool.false_eq_true, if_false]
    exact lookup_append_single_ne hne

/-- A run of insertions for symbols other than the probe leaves its lookup
unchanged. -/
theorem lookup_foldl_insert_ne {m : Nat} {s : String} :
    ∀ {added : List String} {d : Dict}, s ∉ added →
      ((added.foldl (fun dd x => dictInsert x m dd) d).lookup s) =
        d.lookup s := by
  intro added
  induction added with
  | nil => intro d _; rfl
  | cons a t ih =>
    intro d hs
    have ha : s ≠ a := fun h => hs (h ▸ List.mem_cons_self a t)
    have ha' : (s == a) = false := by simpa using ha
    simp only [List.foldl_cons]
    rw [ih (fun h => hs (List.mem_cons_of_mem a h)),
      lookup_dictInsert_ne ha']

/-- Key-distinctness survives filtering. -/
theorem nodupKeys_filter {d : Dict} (p : String × Nat → Bool)
    (hnd : NodupKeys d) : NodupKeys (d.filter p) := by
  unfold NodupKeys at *
  have hsub : List.Sublist ((d.filter p).map Prod.fst) (d.map Prod.fst) :=
    (List.filter_sublist d).map Prod.fst
  exact hnd.sublist hsub

/-- Key-distinctness survives a dict insertion. -/
theorem nodupKeys_dictInsert {k : String} {v : Nat} {d : Dict}
    (hnd : NodupKeys d) : NodupKeys (dictInsert k v d) := by
  unfold dictInsert
  by_cases hc : dictContains d k = true
  · simp only [hc, if_true]
    unfold NodupKeys
    rw [keys_mapUpdate]
    exact hnd
  · simp only [hc, if_false, Bool.false_eq_true]
    unfold NodupKeys
    rw [List.map_append]
    simp only [List.map_cons, List.map_nil]
    rw [List.nodup_append]
    refine ⟨hnd, List.nodup_singleton k, ?_⟩
    intro x hx
    simp only [List.mem_singleton]
    intro hxk
    subst hxk
    exact (contains_iff.not.mp (by simp [hc])) hx

/-- Key-distinctness survives the buy step's insertions. -/
theorem nodupKeys_foldl_insert {m : Nat} :
    ∀ {added : List String} {d : Dict}, NodupKeys d →
      NodupKeys (added.foldl (fun dd x => dictInsert x m dd) d) := by
  intro added
  induction added with
  | nil => intro d h; exact h
  | cons a t ih =>
    intro d h
    simp only [List.foldl_cons]
    exact ih (nodupKeys_dictInsert h)

/-- Key-distinctness survives a whole monthly cycle. -/
theorem nodupKeys_monthCycle {m : Nat} {added : List String} {d : Dict}
    (hnd : NodupKeys d) : NodupKeys (monthCycle m added d).1 := by
  unfold monthCycle
  simp only
  rw [sell_securities_fst m hnd]
  exact nodupKeys_foldl_insert (nodupKeys_filter _ hnd)

/-- The ledger produced by a monthly cycle: sell step then buy
insertions. -/
theorem monthCycle_fst (m : Nat) (added : List String) (d : Dict) :
    (monthCycle m added d).1 =
      added.foldl (fun dd s => dictInsert s m dd) (sell_securities m d).1 :=
  rfl

/-- The intents emitted by a monthly cycle: liquidations then
acquisitions. -/
theorem monthCycle_snd (m : Nat) (added : List String) (d : Dict) :
    (monthCycle m added d).2 =
      (sell_securities m d).2.map Intent.sell ++ added.map Intent.buy :=
  rfl

/-- On a duplicate-free ledger, the sell step liquidates a symbol exactly
when its stored month equals the cycle month. -/
theorem mem_sold_iff {m : Nat} {s : String} {d : Dict} (hnd : NodupKeys d) :
    s ∈ (sell_securities m d).2 ↔ d.lookup s = some m := by
  rw [sell_securities_snd]
  simp only [List.mem_map, List.mem_filter, beq_iff_eq]
  rw [lookup_eq_some_iff_mem hnd]
  constructor
  · rintro ⟨kv, ⟨hkv, hm⟩, rfl⟩
    rw [← hm]
    exact hkv
  · intro h
    exact ⟨(s, m), ⟨h, rfl⟩, rfl⟩

/-- A symbol stored with a different month and not re-bought survives a
monthly cycle with its entry intact and no liquidation intent. -/
theorem monthCycle_keep {m v : Nat} {s : String} {added : List String}
    {d : Dict} (hnd : NodupKeys d) (hv : d.lookup s = some v)
    (hvm : (v == m) = false) (hs : s ∉ added) :
    (monthCycle m added d).1.lookup s = some v ∧
      Intent.sell s ∉ (monthCycle m added d).2 := by
  constructor
  · rw [monthCycle_fst, lookup_foldl_insert_ne hs, sell_securities_fst m hnd]
    exact lookup_filter_keep hv hvm
  · intro hmem
    rw [monthCycle_snd] at hmem
    simp only [List.mem_append, List.mem_map] at hmem
    rcases hmem with ⟨x, hx, hsx⟩ | ⟨x, hx, hsx⟩
    · obtain rfl : x = s := by injection hsx
      have hlook := (mem_sold_iff hnd).mp hx
      rw [hv] at hlook
      simp only [Option.some_inj] at hlook
      rw [hlook] at hvm
      simp at hvm
    · cases hsx

/-- A symbol stored with exactly the cycle month and not re-bought is
liquidated by the cycle and its entry removed. -/
theorem monthCycle_kill {m : Nat} {s : String} {added : List String}
    {d : Dict} (hnd : NodupKeys d) (hv : d.lookup s = some m)
    (hs : s ∉ added) :
    (monthCycle m added d).1.lookup s = none ∧
      Intent.sell s ∈ (monthCycle m added d).2 := by
  constructor
  · rw [monthCycle_fst, lookup_foldl_insert_ne hs, sell_securities_fst m hnd]
    exact lookup_filter_drop hnd hv
  · rw [monthCycle_snd]
    exact List.mem_append_left _
      (List.mem_map_of_mem _ ((mem_sold_iff hnd).mpr hv))

/-- One step of a calendar run. -/
theorem runCalendar_cons (t : Nat) (bs : List String)
    (rest : List (List String)) (d : Dict) :
    runCalendar t (bs :: rest) d =
      ((runCalendar (t + 1) rest (monthCycle (monthOfYear t) bs d).1).1,
       (monthCycle (monthOfYear t) bs d).2 ++
         (runCalendar (t + 1) rest (monthCycle (monthOfYear t) bs d).1).2) :=
  rfl

/-- A calendar run splits across an append of cycle lists. -/
theorem runCalendar_append :
    ∀ (c1 c2 : List (List String)) (t : Nat) (d : Dict),
      runCalendar t (c1 ++ c2) d =
        ((runCalendar (t + c1.length) c2 (runCalendar t c1 d).1).1,
         (runCalendar t c1 d).2 ++
           (runCalendar (t + c1.length) c2 (runCalendar t c1 d).1).2) := by
  intro c1
  induction c1 with
  | nil => intro c2 t d; simp [runCalendar]
  | cons bs rest ih =>
    intro c2 t d
    simp only [List.cons_append, runCalendar_cons]
    rw [ih]
    have harith : t + 1 + rest.length = t + (bs :: rest).length := by
      simp only [List.length_cons]
      omega
    rw [harith]
    simp [runCalendar_cons, List.append_assoc]

/-- A symbol whose stored month is never hit and which is never re-bought
survives a whole calendar run untouched. -/
theorem runCalendar_keep {s : String} {v : Nat} :
    ∀ {css : List (List String)} {t : Nat} {d : Dict}, NodupKeys d →
      d.lookup s = some v → (∀ bs ∈ css, s ∉ bs) →
      (∀ i, i < css.length → (monthOfYear (t + i) == v) = false) →
      (runCalendar t css d).1.lookup s = some v ∧
        NodupKeys (runCalendar t css d).1 ∧
        Intent.sell s ∉ (runCalendar t css d).2 := by
  intro css
  induction css with
  | nil =>
    intro t d hnd hv _ _
    exact ⟨hv, hnd, by simp [runCalendar]⟩
  | cons bs rest ih =>
    intro t d hnd hv hb hm
    have hs0 : s ∉ bs := hb bs (List.mem_cons_self _ _)
    have hm0 : (monthOfYear (t + 0) == v) = false := hm 0 (by simp)
    have hm0' : (v == monthOfYear t) = false := by
      simp only [Nat.add_zero] at hm0
      simp only [beq_eq_false_iff_ne] at *
      exact hm0.symm
    have hkeep := @monthCycle_keep (monthOfYear t) v s bs d hnd hv hm0' hs0
    have hnd1 : NodupKeys (monthCycle (monthOfYear t) bs d).1 :=
      nodupKeys_monthCycle hnd
    have hmrest : ∀ i, i < rest.length →
        (monthOfYear (t + 1 + i) == v) = false := by
      intro i hi
      have harith : t + 1 + i = t + (i + 1) := by omega
      rw [harith]
      exact hm (i + 1) (by simp only [List.length_cons]; omega)
    have hrest := ih hnd1 hkeep.1
      (fun x hx => hb x (List.mem_cons_of_mem _ hx)) hmrest
    rw [runCalendar_cons]
    refine ⟨hrest.1, hrest.2.1, ?_⟩
    simp only [List.mem_append]
    rintro (h | h)
    · exact hkeep.2 h
    · exact hrest.2.2 h

/-- Month-of-year never repeats strictly within twelve months. -/
theorem monthOfYear_add_ne {a k : Nat} (h1 : 1 ≤ k) (h2 : k < 12) :
    monthOfYear (a + k) ≠ monthOfYear a := by
  unfold monthOfYear
  omega

/-- Month-of-year repeats after exactly twelve months. -/
theorem monthOfYear_add_twelve {a : Nat} :
    monthOfYear (a + 12) = monthOfYear a := by
  unfold monthOfYear
  omega

/-- Claim C3: a symbol whose ledger entry was stored in cycle month a and
which is never re-bought keeps its entry, with no liquidation intent,
through every run of fewer than MonthsToKeepSecurities subsequent monthly
cycles, and the run of exactly MonthsToKeepSecurities cycles issues its
liquidation intent and removes its entry. -/
theorem horizon_enforcement (a j : Nat) (s : String)
    (css : List (List String)) (d : Dict) (hnd : NodupKeys d)
    (hj : j ≤ MonthsToKeepSecurities) (hlen : css.length = j)
    (hb : ∀ bs ∈ css, s ∉ bs) (hd : d.lookup s = some (monthOfYear a)) :
    (j < MonthsToKeepSecurities →
      (runCalendar (a + 1) css d).1.lookup s = some (monthOfYear a) ∧
      Intent.sell s ∉ (runCalendar (a + 1) css d).2) ∧
    (j = MonthsToKeepSecurities →
      (runCalendar (a + 1) css d).1.lookup s = none ∧
      Intent.sell s ∈ (runCalendar (a + 1) css d).2) := by
  have hM : MonthsToKeepSecurities = 12 := rfl
  rw [hM] at hj
  constructor
  · intro hjlt
    rw [hM] at hjlt
    have hmiss : ∀ i, i < css.length →
        (monthOfYear (a + 1 + i) == monthOfYear a) = false := by
      intro i hi
      rw [hlen] at hi
      have harith : a + 1 + i = a + (i + 1) := by omega
      rw [harith]
      simpa using monthOfYear_add_ne (a := a) (k := i + 1) (by omega) (by omega)
    obtain ⟨h1, _, h3⟩ := runCalendar_keep hnd hd hb hmiss
    exact ⟨h1, h3⟩
  · intro hjeq
    rw [hjeq, hM] at hlen
    have h11 : 11 < css.length := by omega
    have hsplit : css = css.take 11 ++ css.drop 11 :=
      (List.take_append_drop 11 css).symm
    have hdrop : css.drop 11 = [css.get ⟨11, h11⟩] := by
      rw [List.drop_eq_getElem_cons h11]
      have : css.drop 12 = [] := List.drop_eq_nil_of_le (by omega)
      rw [this]
      rfl
    have hlen11 : (css.take 11).length = 11 := by
      rw [List.length_take]
      omega
    have hmiss : ∀ i, i < (css.take 11).length →
        (monthOfYear (a + 1 + i) == monthOfYear a) = false := by
      intro i hi
      rw [hlen11] at hi
      have harith : a + 1 + i = a + (i + 1) := by omega
      rw [harith]
      simpa using monthOfYear_add_ne (a := a) (k := i + 1) (by omega) (by omega)
    have hb11 : ∀ bs ∈ css.take 11, s ∉ bs :=
      fun bs hbs => hb bs (List.mem_of_mem_take hbs)
    obtain ⟨h1, hnd1, h3⟩ := runCalendar_keep hnd hd hb11 hmiss
    have hlast : s ∉ css.get ⟨11, h11⟩ :=
      hb _ (List.get_mem css 11 h11)
    have hmonth : monthOfYear (a + 1 + 11) = monthOfYear a := by
      have : a + 1 + 11 = a + 12 := by omega
      rw [this]
      exact monthOfYear_add_twelve
    have hkill := @monthCycle_kill (monthOfYear (a + 1 + 11)) s
      (css.get ⟨11, h11⟩) (runCalendar (a + 1) (css.take 11) d).1 hnd1
      (by rw [hmonth]; exact h1) hlast
    rw [hsplit, runCalendar_append, hlen11, hdrop, runCalendar_cons]
    simp only [runCalendar, List.append_nil]
    exact ⟨hkill.1, List.mem_append_right _ hkill.2⟩

/-- Claim C3 witness: a symbol bought in absolute month 0 survives eleven
following cycles and is liquidated at the twelfth. -/
theorem horizon_enforcement_witness :
    ((12 : Nat) < MonthsToKeepSecurities →
      (runCalendar (0 + 1) (List.replicate 12 [])
          [("A", monthOfYear 0)]).1.lookup "A" = some (monthOfYear 0) ∧
      Intent.sell "A" ∉
        (runCalendar (0 + 1) (List.replicate 12 []) [("A", monthOfYear 0)]).2) ∧
    ((12 : Nat) = MonthsToKeepSecurities →
      (runCalendar (0 + 1) (List.replicate 12 [])
          [("A", monthOfYear 0)]).1.lookup "A" = none ∧
      Intent.sell "A" ∈
        (runCalendar (0 + 1) (List.replicate 12 []) [("A", monthOfYear 0)]).2) :=
  horizon_enforcement 0 12 "A" (List.replicate 12 []) [("A", monthOfYear 0)]
    (by unfold NodupKeys; decide) (by decide) (by decide) (by decide) (by decide)

/-- Membership after a dict insertion: the old keys plus the new key. -/
theorem contains_dictInsert_iff {k s : String} {v : Nat} {d : Dict} :
    dictContains (dictInsert k v d) s = true ↔
      (dictContains d s = true ∨ s = k) := by
  unfold dictInsert
  by_cases hc : dictContains d k = true
  · simp only [hc, if_true]
    rw [contains_iff, keys_mapUpdate, ← contains_iff]
    constructor
    · exact Or.inl
    · rintro (h | rfl)
      · exact h
      · exact hc
  · simp only [hc, Bool.false_eq_true, if_false]
    rw [contains_iff, List.map_append, List.mem_append, ← contains_iff]
    simp only [List.map_cons, List.map_nil, List.mem_singleton]

/-- Membership after the buy step's insertions: the old keys plus the
added symbols. -/
theorem contains_foldl_insert_iff {m : Nat} {s : String} :
    ∀ {added : List String} {d : Dict},
      dictContains (added.foldl (fun dd x => dictInsert x m dd) d) s = true ↔
        (dictContains d s = true ∨ s ∈ added) := by
  intro added
  induction added with
  | nil => intro d; simp
  | cons a t ih =>
    intro d
    simp only [List.foldl_cons, List.mem_cons]
    rw [ih, contains_dictInsert_iff]
    tauto

/-- On a duplicate-free ledger, membership after the sell step's filter
means an entry stored with a month other than the cycle month. -/
theorem contains_filter_iff {m : Nat} {s : String} {d : Dict}
    (hnd : NodupKeys d) :
    dictContains (d.filter (fun kv => !(kv.2 == m))) s = true ↔
      (∃ v, d.lookup s = some v ∧ v ≠ m) := by
  rw [contains_iff]
  constructor
  · intro h
    simp only [List.mem_map] at h
    obtain ⟨kv, hkv, rfl⟩ := h
    have hkvd : kv ∈ d := List.mem_of_mem_filter hkv
    have hkvp := List.of_mem_filter hkv
    simp only [Bool.not_eq_eq_eq_not, Bool.not_true, beq_eq_false_iff_ne] at hkvp
    exact ⟨kv.2, (lookup_eq_some_iff_mem hnd).mpr hkvd, hkvp⟩
  · rintro ⟨v, hv, hvm⟩
    have hmem : (s, v) ∈ d := (lookup_eq_some_iff_mem hnd).mp hv
    have hkeep : (s, v) ∈ d.filter (fun kv => !(kv.2 == m)) :=
      List.mem_filter.mpr ⟨hmem, by simpa using hvm⟩
    exact List.mem_map_of_mem Prod.fst hkeep

/-- The first buy intent found for a symbol present in a buy list is its
own. -/
theorem find?_touches_buy_of_mem {s : String} :
    ∀ {l : List String}, s ∈ l →
      (l.map Intent.buy).find? (touches s) = some (Intent.buy s) := by
  intro l
  induction l with
  | nil => intro h; cases h
  | cons a t ih =>
    intro h
    by_cases ha : (a == s) = true
    · rw [List.map_cons, List.find?_cons_of_pos _ (by simpa [touches] using ha)]
      rw [beq_iff_eq.mp ha]
    · rw [List.map_cons, List.find?_cons_of_neg _ (by simpa [touches] using ha)]
      have hat : s ∈ t := by
        rcases List.mem_cons.mp h with rfl | hmem
        · simp at ha
        · exact hmem
      exact ih hat

/-- No buy intent for a symbol absent from the buy list. -/
theorem find?_touches_buy_of_not_mem {s : String} :
    ∀ {l : List String}, s ∉ l →
      (l.map Intent.buy).find? (touches s) = none := by
  intro l
  induction l with
  | nil => intro _; rfl
  | cons a t ih =>
    intro h
    have ha : (a == s) = false := by
      simp only [beq_eq_false_iff_ne]
      exact fun e => h (e ▸ List.mem_cons_self a t)
    rw [List.map_cons, List.find?_cons_of_neg _ (by simp [touches, ha])]
    exact ih (fun hm => h (List.mem_cons_of_mem a hm))

/-- The first sell intent found for a symbol present in a sell list is its
own. -/
theorem find?_touches_sell_of_mem {s : String} :
    ∀ {l : List String}, s ∈ l →
      (l.map Intent.sell).find? (touches s) = some (Intent.sell s) := by
  intro l
  induction l with
  | nil => intro h; cases h
  | cons a t ih =>
    intro h
    by_cases ha : (a == s) = true
    · rw [List.map_cons, List.find?_cons_of_pos _ (by simpa [touches] using ha)]
      rw [beq_iff_eq.mp ha]
    · rw [List.map_cons, List.find?_cons_of_neg _ (by simpa [touches] using ha)]
      have hat : s ∈ t := by
        rcases List.mem_cons.mp h with rfl | hmem
        · simp at ha
        · exact hmem
      exact ih hat

/-- No sell intent for a symbol absent from the sell list. -/
theorem find?_touches_sell_of_not_mem {s : String} :
    ∀ {l : List String}, s ∉ l →
      (l.map Intent.sell).find? (touches s) = none := by
  intro l
  induction l with
  | nil => intro _; rfl
  | cons a t ih =>
    intro h
    have ha : (a == s) = false := by
      simp only [beq_eq_false_iff_ne]
      exact fun e => h (e ▸ List.mem_cons_self a t)
    rw [List.map_cons, List.find?_cons_of_neg _ (by simp [touches, ha])]
    exact ih (fun hm => h (List.mem_cons_of_mem a hm))

/-- Appending a cycle that buys a symbol leaves it with an open
acquisition. -/
theorem openAcquisition_append_buy {s : String} {ins : List Intent}
    {sold added : List String} (h : s ∈ added) :
    openAcquisition s
      (ins ++ (sold.map Intent.sell ++ added.map Intent.buy)) = true := by
  unfold openAcquisition
  rw [List.reverse_append, List.reverse_append, ← List.map_reverse,
    ← List.map_reverse]
  rw [List.append_assoc, List.find?_append,
    find?_touches_buy_of_mem (List.mem_reverse.mpr h)]
  simp

/-- Appending a cycle that sells and does not re-buy a symbol closes its
acquisition. -/
theorem openAcquisition_append_sell {s : String} {ins : List Intent}
    {sold added : List String} (hb : s ∉ added) (hs : s ∈ sold) :
    openAcquisition s
      (ins ++ (sold.map Intent.sell ++ added.map Intent.buy)) = false := by
  unfold openAcquisition
  rw [List.reverse_append, List.reverse_append, ← List.map_reverse,
    ← List.map_reverse]
  rw [List.append_assoc, List.find?_append,
    find?_touches_buy_of_not_mem (fun hm => hb (List.mem_reverse.mp hm))]
  rw [Option.none_or, List.find?_append,
    find?_touches_sell_of_mem (List.mem_reverse.mpr hs)]
  simp

/-- Appending a cycle that neither buys nor sells a symbol leaves its
acquisition state unchanged. -/
theorem openAcquisition_append_skip {s : String} {ins : List Intent}
    {sold added : List String} (hb : s ∉ added) (hs : s ∉ sold) :
    openAcquisition s
      (ins ++ (sold.map Intent.sell ++ added.map Intent.buy)) =
      openAcquisition s ins := by
  unfold openAcquisition
  rw [List.reverse_append, List.reverse_append, ← List.map_reverse,
    ← List.map_reverse]
  rw [List.append_assoc, List.find?_append,
    find?_touches_buy_of_not_mem (fun hm => hb (List.mem_reverse.mp hm))]
  rw [Option.none_or, List.find?_append,
    find?_touches_sell_of_not_mem (fun hm => hs (List.mem_reverse.mp hm))]
  rw [Option.none_or]

/-- One cycle step for the runCycles recursion. -/
theorem runCycles_cons (m : Nat) (added : List String)
    (rest : List (Nat × List String)) (d : Dict) :
    runCycles ((m, added) :: rest) d =
      ((runCycles rest (monthCycle m added d).1).1,
       (monthCycle m added d).2 ++
         (runCycles rest (monthCycle m added d).1).2) :=
  rfl

/-- One monthly cycle preserves the ledger-intent correspondence: a symbol
is a ledger key exactly when its last intent so far is an acquisition. -/
theorem monthCycle_invariant {m : Nat} {added : List String} {d : Dict}
    {ins : List Intent} (hnd : NodupKeys d)
    (hinv : ∀ s, dictContains d s = openAcquisition s ins) :
    ∀ s, dictContains (monthCycle m added d).1 s =
      openAcquisition s (ins ++ (monthCycle m added d).2) := by
  intro s
  rw [monthCycle_snd]
  by_cases hadd : s ∈ added
  · rw [openAcquisition_append_buy hadd, monthCycle_fst]
    exact contains_foldl_insert_iff.mpr (Or.inr hadd)
  · by_cases hsold : s ∈ (sell_securities m d).2
    · rw [openAcquisition_append_sell hadd hsold, monthCycle_fst]
      have hl : d.lookup s = some m := (mem_sold_iff hnd).mp hsold
      rw [Bool.eq_false_iff]
      intro hcon
      rcases contains_foldl_insert_iff.mp hcon with hc | hc
      · rw [sell_securities_fst m hnd] at hc
        obtain ⟨v, hv, hvm⟩ := (contains_filter_iff hnd).mp hc
        rw [hl] at hv
        simp only [Option.some_inj] at hv
        exact hvm hv.symm
      · exact hadd hc
    · rw [openAcquisition_append_skip hadd hsold, ← hinv s, monthCycle_fst]
      cases hc : dictContains d s with
      | false =>
        rw [Bool.eq_false_iff]
        intro hcon
        rcases contains_foldl_insert_iff.mp hcon with hc2 | hc2
        · rw [sell_securities_fst m hnd] at hc2
          obtain ⟨v, hv, _⟩ := (contains_filter_iff hnd).mp hc2
          have : s ∈ d.map Prod.fst := lookup_isSome_iff.mp (by simp [hv])
          rw [contains_iff.mpr this] at hc
          cases hc
        · exact hadd hc2
      | true =>
        have hsome : s ∈ d.map Prod.fst := contains_iff.mp hc
        have hex : ∃ v, d.lookup s = some v := by
          have := lookup_isSome_iff.mpr hsome
          cases hl : d.lookup s with
          | none => rw [hl] at this; cases this
          | some v => exact ⟨v, rfl⟩
        obtain ⟨v, hv⟩ := hex
        have hvm : v ≠ m := by
          intro e
          exact hsold ((mem_sold_iff hnd).mpr (e ▸ hv))
        apply contains_foldl_insert_iff.mpr
        refine Or.inl ?_
        rw [sell_securities_fst m hnd]
        exact (contains_filter_iff hnd).mpr ⟨v, hv, hvm⟩

/-- The ledger-intent correspondence holds across any run of monthly
cycles. -/
theorem runCycles_invariant :
    ∀ (cs : List (Nat × List String)) {d : Dict} {ins : List Intent},
      NodupKeys d → (∀ s, dictContains d s = openAcquisition s ins) →
      NodupKeys (runCycles cs d).1 ∧
      ∀ s, dictContains (runCycles cs d).1 s =
        openAcquisition s (ins ++ (runCycles cs d).2) := by
  intro cs
  induction cs with
  | nil =>
    intro d ins h1 h2
    refine ⟨h1, fun s => ?_⟩
    simpa [runCycles] using h2 s
  | cons c rest ih =>
    obtain ⟨m, added⟩ := c
    intro d ins h1 h2
    have hstep := @monthCycle_invariant m added d ins h1 h2
    have hnd1 : NodupKeys (monthCycle m added d).1 := nodupKeys_monthCycle h1
    have hrest := ih hnd1 hstep
    rw [runCycles_cons]
    refine ⟨hrest.1, fun s => ?_⟩
    have h := hrest.2 s
    dsimp only
    rwa [List.append_assoc] at h

/-- Claim C6: after any sequence of monthly cycles starting from an empty
ledger, a symbol is a ledger key exactly when an acquisition intent for it
was issued with no liquidation intent afterwards. -/
theorem ledger_bijection (cs : List (Nat × List String)) (s : String) :
    dictContains (runCycles cs []).1 s =
      openAcquisition s (runCycles cs []).2 := by
  have hnd : NodupKeys ([] : Dict) := List.nodup_nil
  have hbase : ∀ s, dictContains ([] : Dict) s = openAcquisition s [] :=
    fun _ => rfl
  have h := (runCycles_invariant cs hnd hbase).2 s
  simpa using h

/-- Whether a fallible computation succeeded. -/
def exceptIsOk {α : Type} : Except String α → Bool
  | .ok _ => true
  | .error _ => false

/-- The securities-changed handler runs without an undefined-attribute
error exactly when self.month has been assigned. -/
theorem onSecuritiesChanged_isOk (added : List String) (st : AlgoState) :
    exceptIsOk (OnSecuritiesChanged added st) = st.month.isSome := by
  unfold OnSecuritiesChanged
  cases st.month <;> rfl

/-- Every non-warm-up coarse call assigns the current month to
self.month. -/
theorem coarse_month_set (m : Nat) (c : List CoarseFundamental)
    (st : AlgoState) :
    (CoarseFilterFunction false m c st).1.month = some m := by
  unfold CoarseFilterFunction
  by_cases h : (((m : Nat) : Int) == st.lastMonth) = true <;> simp [h]

/-- A warm-up coarse call leaves the state untouched. -/
theorem coarse_warm_state (m : Nat) (c : List CoarseFundamental)
    (st : AlgoState) : (CoarseFilterFunction true m c st).1 = st :=
  rfl

/-- A successful securities-changed handler leaves self.month unchanged. -/
theorem onSecuritiesChanged_ok_month {added : List String} {st : AlgoState}
    {r : AlgoState × List Intent}
    (h : OnSecuritiesChanged added st = .ok r) : r.1.month = st.month := by
  unfold OnSecuritiesChanged at h
  cases hm : st.month with
  | none => rw [hm] at h; cases h
  | some m =>
    rw [hm] at h
    injection h with h'
    rw [← h']

/-- Across any successfully processed event trace, self.month is assigned
exactly when it was assigned before or some non-warm-up coarse call
occurs in the trace. -/
theorem runEvents_month :
    ∀ {es : List Event} {st0 st : AlgoState},
      runEvents es st0 = .ok st →
      st.month.isSome = (st0.month.isSome || es.any isActiveCoarse) := by
  intro es
  induction es with
  | nil =>
    intro st0 st h
    injection h with h'
    rw [← h']
    simp
  | cons e rest ih =>
    intro st0 st h
    cases e with
    | coarseCall w m c =>
      simp only [runEvents] at h
      have hrest := ih h
      rw [hrest]
      cases w with
      | true =>
        rw [coarse_warm_state]
        simp [isActiveCoarse]
      | false =>
        rw [coarse_month_set]
        simp [isActiveCoarse]
    | securitiesChanged added =>
      simp only [runEvents] at h
      cases hoc : OnSecuritiesChanged added st0 with
      | error msg => rw [hoc] at h; cases h
      | ok r =>
        rw [hoc] at h
        have hrest := ih h
        rw [hrest, onSecuritiesChanged_ok_month hoc]
        simp [isActiveCoarse]

/-- Claim C10: starting from Initialize, the securities-changed handler
reads self.month without error exactly when some non-warm-up coarse
filter call has completed earlier in the event trace. -/
theorem month_defined_iff (es : List Event) (st : AlgoState)
    (added : List String) (h : runEvents es initialState = .ok st) :
    exceptIsOk (OnSecuritiesChanged added st) = es.any isActiveCoarse := by
  rw [onSecuritiesChanged_isOk, runEvents_month h]
  rfl

/-- Claim C10 witness: after one non-warm-up coarse call the handler runs
without error, matching the trace test. -/
theorem month_defined_iff_witness :
    runEvents [Event.coarseCall false 3 []] initialState =
      .ok { lastMonth := 3, month := some 3, purchased_securities := [] } ∧
    exceptIsOk (OnSecuritiesChanged []
        { lastMonth := 3, month := some 3, purchased_securities := [] }) =
      [Event.coarseCall false 3 []].any isActiveCoarse :=
  ⟨by simp [runEvents, CoarseFilterFunction, pySortedDesc, initialState],
   month_defined_iff _ _ []
     (by simp [runEvents, CoarseFilterFunction, pySortedDesc, initialState])⟩
